import Mathlib

/-!
# coursera-golang-webservices: hw2_signer pipeline and hw1_tree printer

A shallow embedding of `src/hw2_signer/signer.go` and of `drawDirTree` from
`src/hw1_tree/main.go`.

Modelling conventions.

* A Go `string` is a Lean `String`; Go compares strings bytewise, which on
  UTF-8 text is the code-point lexicographic order of `String`.
* A Go `int` is an `Int`.
* A value of type `interface{}` travelling through a channel is a `Payload`.
* A channel read by `for x := range ch` is the finite list of values received
  before the channel is closed.
* Several goroutines that send on one unbuffered channel are received in an
  order picked by the Go scheduler.  The scheduler is an explicit argument: a
  list of natural numbers, the k-th of which selects (modulo the number of
  senders still waiting) whose value is received k-th, see `deliver`.
-/


namespace Go

/-! ## Go library primitives used by the source -/

/-- Go `strconv.Itoa`: the decimal representation of an integer. -/
def Itoa (i : Int) : String := toString i

/-- Go `strings.Join(elems, sep)`. -/
def Join : List String → String → String
  | [], _ => ""
  | e :: rest, sep => rest.foldl (fun b s => b ++ sep ++ s) e

/-- Go `sort.Strings`: ascending order of Go's `<` on strings. -/
def sortStrings (a : List String) : List String :=
  a.insertionSort (fun x y => x.toList ≤ y.toList)

/-- Go `sort.Ints`: ascending order. -/
def sortInts (a : List Int) : List Int :=
  a.insertionSort (fun x y => x ≤ y)

end Go

namespace Signer
open Go

/-- The order in which the values offered by concurrently waiting senders are
received from one unbuffered channel: at each step the scheduler entry selects
one of the senders still waiting. `fuel` bounds the number of receptions. -/
def deliverFuel {α : Type} : Nat → List Nat → List α → List α
  | 0, _, _ => []
  | _ + 1, _, [] => []
  | fuel + 1, sched, p :: ps =>
    let i := sched.headD 0 % (p :: ps).length
    (p :: ps).getD i p :: deliverFuel fuel sched.tail ((p :: ps).eraseIdx i)

/-- Reception of every waiting sender's value, in scheduler order. -/
def deliver {α : Type} (sched : List Nat) (pending : List α) : List α :=
  deliverFuel pending.length sched pending

/-! ## Data model -/

/-- A dynamically typed Go value (`interface{}`): an `int`, a `string`, or a
value of any other dynamic type (named by `typeName`; `nil` included). -/
inductive Payload where
  | int (v : Int)
  | str (s : String)
  | other (typeName : String)
deriving DecidableEq, Repr

/-- Source `type HashNode struct { id int; value string }`. -/
structure HashNode where
  id : Int
  value : String
deriving DecidableEq, Repr

/-- Source `const multiHashSubHashes = 6`. -/
def multiHashSubHashes : Nat := 6

/-! ## Conversions -/

/-- Source `convertToString`: the type assertion `input.(string)`; when it fails the
error value built by `fmt.Errorf` is discarded and the zero string is
returned. -/
def convertToString : Payload → String
  | .str s => s
  | _ => ""

/-- Source `convertToInt`: the type assertion `input.(int)`; when it fails the error
value built by `fmt.Errorf` is discarded and zero is returned. -/
def convertToInt : Payload → Int
  | .int v => v
  | _ => 0

/-! ## SingleHash -/

/-- Source `calculateSingleHashSum`: the value sent on `out`,
`fmt.Sprintf("%v~%v", hashFromInput, hashFromMd5)`. -/
def calculateSingleHashSum (crc : String → String)
    (inputAsString inputAsMd5 : String) : String :=
  let hashFromInput := crc inputAsString
  let hashFromMd5 := crc inputAsMd5
  hashFromInput ++ "~" ++ hashFromMd5

/-- The body of the `for input := range in` loop of `SingleHash`: the value the
goroutine started for `input` will send on `singleHashCh`. -/
def singleHashSpawn (crc md5 : String → String) (input : Payload) : String :=
  let inputAsString := Itoa (convertToInt input)
  let md5v := md5 inputAsString
  calculateSingleHashSum crc inputAsString md5v

/-- Source `SingleHash`: the sequence of values sent on `out`. The first loop starts
one goroutine per input; the second loop forwards what they send on
`singleHashCh`, in the order `sched` lets them through. -/
def SingleHash (crc md5 : String → String) (sched : List Nat)
    (input : List Payload) : List String :=
  let spawned := input.foldl (fun acc x => acc ++ [singleHashSpawn crc md5 x]) []
  deliver sched spawned

/-! ## MultiHash -/

/-- Source `calculateInnerMultiHash`: the node sent on the inner channel,
`HashNode{position, DataSignerCrc32(fmt.Sprintf("%v%v", position, input))}`. -/
def calculateInnerMultiHash (crc : String → String) (position : Nat)
    (input : String) : HashNode :=
  { id := position, value := crc (Itoa position ++ input) }

/-- A Go `map[int]string` as an association list, newest binding first. -/
abbrev HashMap := List (Int × String)

/-- The assignment `m[k] = v`. -/
def HashMap.set (m : HashMap) (k : Int) (v : String) : HashMap := (k, v) :: m

/-- The index expression `m[k]`: the bound value, or the zero string when the
key is absent. -/
def HashMap.get : HashMap → Int → String
  | [], _ => ""
  | (k', v) :: m, k => if k' = k then v else HashMap.get m k

/-- The `for o := range in` loop of `calculateOuterMultiHash`: the map
`hashNodes` and the slice `hashNodeKeys` after all nodes were received. -/
def collectHashNodes (received : List HashNode) : HashMap × List Int :=
  received.foldl (fun st o => (st.1.set o.id o.value, st.2 ++ [o.id])) ([], [])

/-- Source `calculateOuterMultiHash`: the string sent on `out`, given the nodes
received from `in` in order of arrival. The second loop,
`for i := range hashNodeKeys`, ranges over the indices of the sorted slice. -/
def calculateOuterMultiHash (received : List HashNode) : String :=
  let st := collectHashNodes received
  let hashNodes := st.1
  let hashNodeKeys := sortInts st.2
  let results := (List.range hashNodeKeys.length).foldl
    (fun results (i : Nat) => results ++ [hashNodes.get (i : Int)]) []
  Join results ""

/-- The body of the `for input := range in` loop of `MultiHash` for the k-th
input: six goroutines send their nodes on the inner channel, which
`calculateOuterMultiHash` receives in the order `innerSched` lets them
through. -/
def multiHashSpawn (crc : String → String) (innerSched : List Nat)
    (input : Payload) : String :=
  let inputAsString := convertToString input
  let sent := (List.range multiHashSubHashes).map
    (fun i => calculateInnerMultiHash crc i inputAsString)
  calculateOuterMultiHash (deliver innerSched sent)

/-- Source `MultiHash`: the sequence of values sent on `out`. `innerSched k` is the
schedule of the inner channel of the k-th input, `outerSched` that of
`multiHashOuterCh`. -/
def MultiHash (crc : String → String) (innerSched : Nat → List Nat)
    (outerSched : List Nat) (input : List Payload) : List String :=
  let spawned := input.enum.foldl
    (fun acc kx => acc ++ [multiHashSpawn crc (innerSched kx.1) kx.2]) []
  deliver outerSched spawned

/-! ## CombineResults -/

/-- Source `CombineResults`: the sequence of values sent on `out`. -/
def CombineResults (input : List Payload) : List String :=
  let results := input.foldl (fun results x => results ++ [convertToString x]) []
  let results := sortStrings results
  [Join results "_"]

/-! ## Reference definition for the reassembly by index -/

/-- The value last received with id `i`, or the empty string when no node with
id `i` was received. -/
def lastValueWithId (received : List HashNode) (i : Int) : String :=
  match received.reverse.find? (fun o => decide (o.id = i)) with
  | some o => o.value
  | none => ""

/-! ## ExecutePipeline -/

/-- A channel, identified by its rank among the channels `ExecutePipeline`
makes, in order of creation. -/
abbrev Chan := Nat

/-- One `go runJob(&wg, job, in, out)`: `runJob` calls `job(in, out)` once. -/
structure Launch (Job : Type) where
  job : Job
  inCh : Chan
  outCh : Chan
deriving DecidableEq, Repr

/-- The local variables of `ExecutePipeline`, the number of channels made so
far, and the goroutines started so far. -/
structure PipelineState (Job : Type) where
  made : Nat
  inCh : Chan
  outCh : Chan
  launched : List (Launch Job)

/-- Source `runJob` as started by `ExecutePipeline`. -/
def runJob {Job : Type} (job : Job) (inCh outCh : Chan) : Launch Job :=
  { job := job, inCh := inCh, outCh := outCh }

/-- One iteration of `for _, job := range jobs`. -/
def pipelineStep {Job : Type} (st : PipelineState Job) (job : Job) : PipelineState Job :=
  { launched := st.launched ++ [runJob job st.inCh st.outCh]
    inCh := st.outCh
    outCh := st.made
    made := st.made + 1 }

/-- Source `ExecutePipeline`: the goroutines it starts, in order. -/
def ExecutePipeline {Job : Type} (jobs : List Job) : List (Launch Job) :=
  let st0 : PipelineState Job := { made := 2, inCh := 0, outCh := 1, launched := [] }
  (jobs.foldl pipelineStep st0).launched

/-! ## Calls in flight during SingleHash

The calls of `DataSignerMd5` and `DataSignerCrc32` made while `SingleHash`
runs, as a trace of call and return events. Each goroutine is the list of the
actions it performs in program order; a run interleaves the goroutines started
so far, one action at a time, in an order chosen by the schedule. Channel and
`WaitGroup` operations make no call and are not recorded; they can only delay
a goroutine, so every trace of the program is a trace of this model. -/

/-- A call of a signer function or its return; `k` is the rank of the input of
`SingleHash` it is made for, `ofMd5` tells the crc32 call on the md5 digest
from the one on the input itself. -/
inductive Event where
  | md5Call (k : Nat)
  | md5Return (k : Nat)
  | crcCall (k : Nat) (ofMd5 : Bool)
  | crcReturn (k : Nat) (ofMd5 : Bool)
deriving DecidableEq, Repr

/-- The goroutines started during `SingleHash`, other than the one running
`SingleHash` itself: `calculateSingleHashSum` for input `k`, its two anonymous
functions calling `DataSignerCrc32`, and the anonymous function that waits for
the group and closes `singleHashCh`. -/
inductive Goroutine where
  | calculateSingleHashSum (k : Nat)
  | crcWorker (k : Nat) (ofMd5 : Bool)
  | closer
deriving DecidableEq, Repr

/-- One action of a goroutine: a call event, or a `go` statement. -/
inductive Action where
  | event (e : Event)
  | go (g : Goroutine)
deriving DecidableEq, Repr

/-- The actions of each started goroutine, in program order. -/
def program : Goroutine → List Action
  | .calculateSingleHashSum k => [.go (.crcWorker k false), .go (.crcWorker k true)]
  | .crcWorker k ofMd5 => [.event (.crcCall k ofMd5), .event (.crcReturn k ofMd5)]
  | .closer => []

/-- The `for input := range in` loop of `SingleHash` from the input of rank
`k` on: `DataSignerMd5` is called and returns in the loop itself, then the
goroutine for the input is started. -/
def mainLoop : Nat → List Payload → List Action
  | _, [] => []
  | k, _ :: rest =>
    [.event (.md5Call k), .event (.md5Return k), .go (.calculateSingleHashSum k)]
      ++ mainLoop (k + 1) rest

/-- The actions of the goroutine running `SingleHash`. -/
def mainProgram (input : List Payload) : List Action :=
  mainLoop 0 input ++ [.go .closer]

/-- A started goroutine that has not finished: its next action and the rest. -/
structure Thread where
  next : Action
  rest : List Action
deriving DecidableEq, Repr

/-- The thread with the given remaining actions, none when it has finished. -/
def spawnThread : List Action → List Thread
  | [] => []
  | a :: rest => [{ next := a, rest := rest }]

/-- The goroutine running `SingleHash` and the unfinished goroutines started
so far. -/
structure RunState where
  main : List Action
  workers : List Thread
deriving DecidableEq, Repr

/-- The effect of one action: the event it records and the threads it starts. -/
def exec : Action → Option Event × List Thread
  | .event e => (some e, [])
  | .go g => (none, spawnThread (program g))

/-- The goroutine running `SingleHash` performs its next action `a`. -/
def runMain (a : Action) (rest : List Action) (ws : List Thread) : Option Event × RunState :=
  ((exec a).1, { main := rest, workers := ws ++ (exec a).2 })

/-- The started goroutine of index `i` among `w :: ws` performs its next
action. -/
def runWorker (main : List Action) (i : Nat) (w : Thread) (ws : List Thread) :
    Option Event × RunState :=
  let t := (w :: ws).getD i w
  let others := (w :: ws).eraseIdx i
  ((exec t.next).1,
    { main := main, workers := others ++ spawnThread t.rest ++ (exec t.next).2 })

/-- One scheduling step: the choice `c` selects one unfinished goroutine, which
performs its next action; none when every goroutine has finished. -/
def step (c : Nat) : RunState → Option (Option Event × RunState)
  | ⟨[], []⟩ => none
  | ⟨[], w :: ws⟩ => some (runWorker [] (c % (ws.length + 1)) w ws)
  | ⟨a :: rest, []⟩ => some (runMain a rest [])
  | ⟨a :: rest, w :: ws⟩ =>
    if c % (ws.length + 2) = 0 then some (runMain a rest (w :: ws))
    else some (runWorker (a :: rest) (c % (ws.length + 2) - 1) w ws)

/-- The events recorded by at most `fuel` scheduling steps. -/
def run : Nat → List Nat → RunState → List Event
  | 0, _, _ => []
  | fuel + 1, sched, st =>
    match step (sched.headD 0) st with
    | none => []
    | some (ev, st') => ev.toList ++ run fuel sched.tail st'

/-- The trace of signer calls of `SingleHash` on `input` under `sched`; each
input accounts for nine actions and the closing goroutine for one. -/
def singleHashTrace (sched : List Nat) (input : List Payload) : List Event :=
  run (9 * input.length + 1) sched { main := mainProgram input, workers := [] }

/-- The number of `DataSignerMd5` calls begun in a trace. -/
def md5Calls (p : List Event) : Nat :=
  p.countP (fun e => match e with | .md5Call _ => true | _ => false)

/-- The number of `DataSignerMd5` calls that returned in a trace. -/
def md5Returns (p : List Event) : Nat :=
  p.countP (fun e => match e with | .md5Return _ => true | _ => false)

/-- The number of `DataSignerCrc32` calls begun for input `k` in a trace. -/
def crcCalls (k : Nat) (p : List Event) : Nat :=
  p.countP (fun e => match e with | .crcCall j _ => decide (j = k) | _ => false)

/-- The number of `DataSignerCrc32` calls for input `k` that returned in a
trace. -/
def crcReturns (k : Nat) (p : List Event) : Nat :=
  p.countP (fun e => match e with | .crcReturn j _ => decide (j = k) | _ => false)

/-- Whether an event is a call or a return of `DataSignerMd5`. -/
def isMd5 : Event → Bool
  | .md5Call _ => true
  | .md5Return _ => true
  | _ => false

/-- The `DataSignerMd5` events among a goroutine's remaining actions. -/
def md5Events : List Action → List Event
  | [] => []
  | .event e :: rest => if isMd5 e then e :: md5Events rest else md5Events rest
  | .go _ :: rest => md5Events rest

/-- The number of scheduling steps a started goroutine accounts for, the
goroutines it starts included. -/
def goroutineWeight : Goroutine → Nat
  | .calculateSingleHashSum _ => 6
  | .crcWorker _ _ => 2
  | .closer => 0

/-- The number of scheduling steps an action accounts for. -/
def actionWeight : Action → Nat
  | .event _ => 1
  | .go g => 1 + goroutineWeight g

/-- The number of scheduling steps a list of actions accounts for. -/
def actionsWeight (l : List Action) : Nat := (l.map actionWeight).sum

/-- The number of scheduling steps the unfinished goroutines account for. -/
def threadsWeight (ws : List Thread) : Nat :=
  (ws.map fun t => actionsWeight (t.next :: t.rest)).sum

/-- The number of scheduling steps left in a state. -/
def stateWeight (st : RunState) : Nat := actionsWeight st.main + threadsWeight st.workers

/-- The calls and returns of `DataSignerMd5` for `n` inputs from rank `k` on,
each call returning before the next begins. -/
def md5Sequence : Nat → Nat → List Event
  | _, 0 => []
  | k, n + 1 => .md5Call k :: .md5Return k :: md5Sequence (k + 1) n

end Signer

namespace DirTree
open Go

/-! ## drawDirTree -/

def defaultNodePrefix : String := "├───"
def lastNodePrefix : String := "└───"
def defaultNodeLevelPrefix : String := "│\t"
def lastNodeLevelPrefix : String := "\t"
def emptySizeSuffix : String := " (empty)"
def newLine : String := "\n"

/-- Go `fmt.Sprintf(nonEmptySizeSuffix, s)` with `nonEmptySizeSuffix = " (%vb)"`. -/
def nonEmptySizeSuffix (s : String) : String := " (" ++ s ++ "b)"

/-- Source `type FileNode struct { name string; size int; children []FileNode }`. -/
inductive FileNode where
  | mk (name : String) (size : Int) (children : List FileNode)

mutual
/-- The body of the loop of `drawDirTree` for the entry `node` at index `key`
of a slice of `length` entries: the writes it makes on `out`, in order. -/
def drawNode (printFiles : Bool) (levelPrefix : String) (length key : Nat) :
    FileNode → List String
  | .mk name size children =>
    let nodePathName := levelPrefix
    let nodePathName :=
      if length > key + 1 then nodePathName ++ defaultNodePrefix else nodePathName
    let nodePathName :=
      if length = key + 1 then nodePathName ++ lastNodePrefix else nodePathName
    let nodePathName := nodePathName ++ name
    let nodePathName :=
      if printFiles = true ∧ size = 0 then nodePathName ++ emptySizeSuffix else nodePathName
    let nodePathName :=
      if printFiles = true ∧ size > 0 then nodePathName ++ nonEmptySizeSuffix (Itoa size)
      else nodePathName
    let nodePathName := nodePathName ++ newLine
    nodePathName ::
      (if children.length > 0 then
        let childrenPrefix := levelPrefix
        let childrenPrefix :=
          if length > key + 1 then childrenPrefix ++ defaultNodeLevelPrefix else childrenPrefix
        let childrenPrefix :=
          if length = key + 1 then childrenPrefix ++ lastNodeLevelPrefix else childrenPrefix
        drawLoop printFiles childrenPrefix children.length 0 children
      else [])
/-- The loop `for key, node := range fileNodes` from index `key` on, over the
entries not yet visited. -/
def drawLoop (printFiles : Bool) (levelPrefix : String) (length : Nat) :
    Nat → List FileNode → List String
  | _, [] => []
  | key, node :: rest =>
    drawNode printFiles levelPrefix length key node
      ++ drawLoop printFiles levelPrefix length (key + 1) rest
end

/-- Source `drawDirTree`: the sequence of `out.Write` calls, one string each. -/
def drawDirTree (fileNodes : List FileNode) (printFiles : Bool) (levelPrefix : String) :
    List String :=
  drawLoop printFiles levelPrefix fileNodes.length 0 fileNodes

/-! ## Reference definitions for the printed tree

The listing below is written from the description of the output (pre-order,
connector and indentation chosen by last-sibling position), independently of
the index arithmetic of `drawDirTree`. -/

/-- The text of a node after its connector: the name and the size suffix. -/
def specNodeLabel (printFiles : Bool) (name : String) (size : Int) : String :=
  name ++ (if printFiles = true ∧ size = 0 then " (empty)"
    else if printFiles = true ∧ size > 0 then " (" ++ Itoa size ++ "b)" else "")

mutual
/-- The lines of a node and of its descendants, the node first. -/
def specNodeLines (printFiles : Bool) (levelPrefix : String) (isLast : Bool) :
    FileNode → List String
  | .mk name size children =>
    (levelPrefix ++ (if isLast then "└───" else "├───") ++ specNodeLabel printFiles name size ++ "\n")
      :: specForestLines printFiles (levelPrefix ++ (if isLast then "\t" else "│\t")) children
/-- The lines of a sibling list in depth-first pre-order; a node is last when
no sibling follows it. -/
def specForestLines (printFiles : Bool) (levelPrefix : String) : List FileNode → List String
  | [] => []
  | node :: rest =>
    specNodeLines printFiles levelPrefix rest.isEmpty node
      ++ specForestLines printFiles levelPrefix rest
end

mutual
/-- The number of nodes of a tree. -/
def specNodeCount : FileNode → Nat
  | .mk _ _ children => 1 + specForestCount children
/-- The number of nodes of a forest, nested children included. -/
def specForestCount : List FileNode → Nat
  | [] => 0
  | node :: rest => specNodeCount node + specForestCount rest
end

end DirTree

/-! # Theorems -/

namespace Signer
open Go

theorem foldl_append_singleton {α β : Type} (f : α → β) (l : List α) (init : List β) :
    l.foldl (fun acc x => acc ++ [f x]) init = init ++ l.map f := by
  induction l generalizing init with
  | nil => simp
  | cons a l ih => simp [ih]

theorem getD_cons_eraseIdx_perm {α : Type} (l : List α) (i : Nat) (d : α)
    (h : i < l.length) : (l.getD i d :: l.eraseIdx i).Perm l := by
  induction l generalizing i with
  | nil => simp at h
  | cons a l ih =>
    cases i with
    | zero => simp
    | succ i =>
      have h' : i < l.length := by simpa using h
      have := ih i h'
      simp only [List.getD_cons_succ, List.eraseIdx_cons_succ]
      exact (List.Perm.swap a (l.getD i d) (l.eraseIdx i)).trans (this.cons a)

theorem deliverFuel_perm {α : Type} (fuel : Nat) (sched : List Nat) (pending : List α)
    (h : pending.length = fuel) : (deliverFuel fuel sched pending).Perm pending := by
  induction fuel generalizing sched pending with
  | zero =>
    have : pending = [] := List.length_eq_zero.mp h
    subst this
    simp [deliverFuel]
  | succ fuel ih =>
    cases pending with
    | nil => simp at h
    | cons p ps =>
      have hlt : sched.headD 0 % (p :: ps).length < (p :: ps).length :=
        Nat.mod_lt _ (by simp)
      have hlen : ((p :: ps).eraseIdx (sched.headD 0 % (p :: ps).length)).length = fuel := by
        rw [List.length_eraseIdx]
        simp only [hlt, if_true]
        simpa using h
      simp only [deliverFuel]
      exact ((ih sched.tail _ hlen).cons _).trans (getD_cons_eraseIdx_perm _ _ _ hlt)

theorem deliver_perm {α : Type} (sched : List Nat) (pending : List α) :
    (deliver sched pending).Perm pending :=
  deliverFuel_perm _ _ _ rfl

theorem deliverFuel_complete {α : Type} (target pending : List α) (h : target.Perm pending) :
    ∃ sched : List Nat, deliverFuel pending.length sched pending = target := by
  induction target generalizing pending with
  | nil =>
    have : pending = [] := List.perm_nil.mp h.symm
    subst this
    exact ⟨[], rfl⟩
  | cons x xs ih =>
    have hx : x ∈ pending := h.subset (List.mem_cons_self x xs)
    obtain ⟨i, hi, hxi⟩ := List.getElem_of_mem hx
    cases pending with
    | nil => simp at hi
    | cons p ps =>
      have hget : (p :: ps).getD i p = x := by
        rw [List.getD_eq_getElem _ _ hi]; exact hxi
      have hperm : xs.Perm ((p :: ps).eraseIdx i) := by
        have h1 := getD_cons_eraseIdx_perm (p :: ps) i p hi
        rw [hget] at h1
        exact (List.perm_cons x).mp (h.trans h1.symm)
      obtain ⟨sched, hs⟩ := ih _ hperm
      have hlen : ((p :: ps).eraseIdx i).length = ps.length := by
        rw [List.length_eraseIdx]; simp only [hi, if_true]; simp
      refine ⟨i :: sched, ?_⟩
      have hmod : i % (p :: ps).length = i := Nat.mod_eq_of_lt hi
      simp only [List.length_cons, deliverFuel, List.headD_cons, List.tail_cons]
      simp only [List.length_cons] at hmod
      rw [hmod, hget]
      rw [hlen] at hs
      rw [hs]

/-- Every arrival order is produced by some schedule. -/
theorem deliver_complete {α : Type} (target pending : List α) (h : target.Perm pending) :
    ∃ sched : List Nat, deliver sched pending = target :=
  deliverFuel_complete target pending h

theorem deliver_nil {α : Type} (sched : List Nat) : deliver sched ([] : List α) = [] := rfl

theorem singleHash_eq (crc md5 : String → String) (sched : List Nat) (input : List Payload) :
    SingleHash crc md5 sched input = deliver sched (input.map (singleHashSpawn crc md5)) := by
  simp [SingleHash, foldl_append_singleton]

/-- C1. For every finite sequence of int payloads and every schedule, the
multiset of strings `SingleHash` sends equals the multiset of
`crc(s) ++ "~" ++ crc(md5(s))` over the inputs, `s` the decimal string of the
input: exactly one output per input, in some order. -/
theorem SingleHash_multiset (crc md5 : String → String) (sched : List Nat) (vs : List Int) :
    (SingleHash crc md5 sched (vs.map Payload.int) : Multiset String)
        = (vs.map (fun v => crc (Itoa v) ++ "~" ++ crc (md5 (Itoa v))) : Multiset String)
      ∧ (SingleHash crc md5 sched (vs.map Payload.int)).length = vs.length := by
  have hp : (SingleHash crc md5 sched (vs.map Payload.int)).Perm
      (vs.map (fun v => crc (Itoa v) ++ "~" ++ crc (md5 (Itoa v)))) := by
    rw [singleHash_eq]
    refine (deliver_perm _ _).trans ?_
    rw [List.map_map]
    exact List.Perm.of_eq rfl
  exact ⟨Multiset.coe_eq_coe.mpr hp, by simpa using hp.length_eq⟩

theorem collect_foldl (l : List HashNode) (m : HashMap) (ks : List Int) :
    l.foldl (fun st o => (HashMap.set st.1 o.id o.value, st.2 ++ [o.id])) (m, ks)
      = ((l.reverse.map fun o => (o.id, o.value)) ++ m, ks ++ l.map (fun o => o.id)) := by
  induction l generalizing m ks with
  | nil => simp
  | cons o l ih =>
    simp only [List.foldl_cons]
    rw [ih]
    simp [HashMap.set]

theorem collectHashNodes_eq (l : List HashNode) :
    collectHashNodes l = (l.reverse.map (fun o => (o.id, o.value)), l.map (fun o => o.id)) := by
  simp [collectHashNodes, collect_foldl]

theorem sortInts_length (a : List Int) : (sortInts a).length = a.length :=
  List.length_insertionSort _ a

theorem join_foldl (rest : List String) (e : String) :
    rest.foldl (fun b s => b ++ "" ++ s) e = rest.foldl (fun r s => r ++ s) e := by
  induction rest generalizing e with
  | nil => rfl
  | cons s rest ih => simp [ih]

theorem Join_empty_sep (l : List String) : Join l "" = String.join l := by
  cases l with
  | nil => rfl
  | cons e rest => simp [Join, String.join, join_foldl]

theorem get_map_eq_find (l : List HashNode) (k : Int) :
    HashMap.get (l.map fun o => (o.id, o.value)) k
      = match l.find? (fun o => decide (o.id = k)) with
        | some o => o.value
        | none => "" := by
  induction l with
  | nil => rfl
  | cons o l ih =>
    by_cases h : o.id = k
    · simp [HashMap.get, List.find?, h]
    · simp [HashMap.get, List.find?, h, ih]

theorem calculateOuterMultiHash_eq (l : List HashNode) :
    calculateOuterMultiHash l
      = String.join ((List.range l.length).map (fun i : Nat => lastValueWithId l (i : Int))) := by
  simp only [calculateOuterMultiHash, collectHashNodes_eq, sortInts_length, List.length_map,
    foldl_append_singleton, List.nil_append, Join_empty_sep, lastValueWithId, get_map_eq_find]

theorem get_of_mem_nodup (l : List HashNode) (hnd : (l.map fun o => o.id).Nodup)
    (o : HashNode) (ho : o ∈ l) :
    HashMap.get (l.map fun o => (o.id, o.value)) o.id = o.value := by
  induction l with
  | nil => simp at ho
  | cons a l ih =>
    rw [List.map_cons, List.nodup_cons] at hnd
    rcases List.mem_cons.mp ho with h | h
    · subst h
      simp [HashMap.get]
    · have hne : a.id ≠ o.id := by
        intro heq
        exact hnd.1 (heq ▸ List.mem_map_of_mem (fun o => o.id) h)
      simp [HashMap.get, hne, ih hnd.2 h]

theorem lastValueWithId_of_mem (l : List HashNode) (hnd : (l.map fun o => o.id).Nodup)
    (o : HashNode) (ho : o ∈ l) : lastValueWithId l o.id = o.value := by
  have h1 : ((l.reverse).map fun o => o.id).Nodup := by
    rw [List.map_reverse]; exact List.nodup_reverse.mpr hnd
  have h2 := get_of_mem_nodup l.reverse h1 o (List.mem_reverse.mpr ho)
  rw [get_map_eq_find] at h2
  exact h2

theorem range_cast_sorted (n : Nat) :
    ((List.range n).map (fun i : Nat => (i : Int))).Sorted (fun a b => a ≤ b) := by
  refine List.pairwise_map.mpr ?_
  exact (List.pairwise_lt_range n).imp (fun h => by exact_mod_cast Nat.le_of_lt h)

theorem outer_of_sorted (n : Nat) (nodes sorted : List HashNode)
    (hids : (nodes.map fun o => o.id).Perm ((List.range n).map (fun i : Nat => (i : Int))))
    (hperm : sorted.Perm nodes) (hsorted : sorted.Sorted (fun a b => a.id ≤ b.id)) :
    calculateOuterMultiHash nodes = String.join (sorted.map fun o => o.value) := by
  have hlen : nodes.length = n := by simpa using hids.length_eq
  have hnd : (nodes.map fun o => o.id).Nodup :=
    hids.nodup_iff.mpr ((List.nodup_range n).map (fun a b h => by exact_mod_cast h))
  have hsid : (sorted.map fun o => o.id) = (List.range n).map (fun i : Nat => (i : Int)) := by
    refine List.eq_of_perm_of_sorted (r := fun a b : Int => a ≤ b)
      ((hperm.map _).trans hids) ?_ (range_cast_sorted n)
    exact List.pairwise_map.mpr hsorted
  have hvals : (List.range n).map (fun i : Nat => lastValueWithId nodes (i : Int))
      = sorted.map fun o => o.value := by
    have e1 : (List.range n).map (fun i : Nat => lastValueWithId nodes (i : Int))
        = ((List.range n).map (fun i : Nat => (i : Int))).map (lastValueWithId nodes) := by
      rw [List.map_map]; rfl
    rw [e1, ← hsid, List.map_map]
    refine List.map_congr_left ?_
    intro o ho
    exact lastValueWithId_of_mem nodes hnd o (hperm.subset ho)
  rw [calculateOuterMultiHash_eq, hlen, hvals]

theorem get_append_cons_ne (A B : HashMap) (k' k : Int) (v : String) (h : k' ≠ k) :
    HashMap.get (A ++ (k', v) :: B) k = HashMap.get (A ++ B) k := by
  induction A with
  | nil => simp [HashMap.get, h]
  | cons a A ih =>
    obtain ⟨ka, va⟩ := a
    by_cases hk : ka = k
    · simp [HashMap.get, hk]
    · simp only [List.cons_append, HashMap.get, hk, if_false]
      exact ih

theorem lastValueWithId_eq_get (l : List HashNode) (k : Int) :
    lastValueWithId l k = HashMap.get (l.reverse.map fun o => (o.id, o.value)) k := by
  rw [get_map_eq_find]; rfl

theorem multiHash_eq (crc : String → String) (innerSched : Nat → List Nat)
    (outerSched : List Nat) (input : List Payload) :
    MultiHash crc innerSched outerSched input
      = deliver outerSched
          (input.enum.map fun kx => multiHashSpawn crc (innerSched kx.1) kx.2) := by
  simp [MultiHash, foldl_append_singleton]

theorem sent_sorted (crc : String → String) (s : String) :
    ((List.range multiHashSubHashes).map
      (fun i => calculateInnerMultiHash crc i s)).Sorted (fun a b => a.id ≤ b.id) := by
  refine List.pairwise_map.mpr ?_
  refine (List.pairwise_lt_range _).imp ?_
  intro a b h
  simp only [calculateInnerMultiHash]
  exact_mod_cast Nat.le_of_lt h

theorem multiHashSpawn_str (crc : String → String) (innerSched : List Nat) (v : String) :
    multiHashSpawn crc innerSched (Payload.str v)
      = crc ("0" ++ v) ++ crc ("1" ++ v) ++ crc ("2" ++ v) ++ crc ("3" ++ v)
          ++ crc ("4" ++ v) ++ crc ("5" ++ v) := by
  simp only [multiHashSpawn, convertToString]
  rw [outer_of_sorted multiHashSubHashes _ _ ?_ (deliver_perm innerSched _).symm
    (sent_sorted crc v)]
  · simp [multiHashSubHashes, List.range, List.range.loop, calculateInnerMultiHash,
      String.join]
    rfl
  · refine ((deliver_perm innerSched _).map _).trans ?_
    rw [List.map_map]
    exact List.Perm.of_eq rfl

theorem Join_go_eq (acc sep : String) (rest : List String) :
    String.intercalate.go acc sep rest = rest.foldl (fun b s => b ++ sep ++ s) acc := by
  induction rest generalizing acc with
  | nil => rfl
  | cons s rest ih => simp [String.intercalate.go, ih]

theorem Join_eq_intercalate (l : List String) (sep : String) :
    Join l sep = sep.intercalate l := by
  cases l with
  | nil => rfl
  | cons e rest => simp [Join, String.intercalate, Join_go_eq]

theorem sortStrings_perm (l : List String) : (sortStrings l).Perm l :=
  List.perm_insertionSort _ l

theorem sortStrings_sorted (l : List String) :
    (sortStrings l).Sorted (fun a b : String => a ≤ b) := by
  have htot : IsTotal String (fun x y => x.toList ≤ y.toList) :=
    ⟨fun a b => le_total a.toList b.toList⟩
  have htr : IsTrans String (fun x y => x.toList ≤ y.toList) :=
    ⟨fun a b c h1 h2 => le_trans (a := a.toList) h1 h2⟩
  have h := List.sorted_insertionSort (fun x y : String => x.toList ≤ y.toList) l
  exact List.Pairwise.imp (fun {a b} hab => String.le_iff_toList_le.mpr hab) h

theorem sortStrings_congr (l₁ l₂ : List String) (h : l₁.Perm l₂) :
    sortStrings l₁ = sortStrings l₂ :=
  List.eq_of_perm_of_sorted (r := fun a b : String => a ≤ b)
    (((sortStrings_perm l₁).trans h).trans (sortStrings_perm l₂).symm)
    (sortStrings_sorted l₁) (sortStrings_sorted l₂)

theorem combineResults_eq (input : List Payload) :
    CombineResults input = [Join (sortStrings (input.map convertToString)) "_"] := by
  simp [CombineResults, foldl_append_singleton]

theorem map_convertToString_str (vs : List String) :
    (vs.map Payload.str).map convertToString = vs := by
  induction vs with
  | nil => rfl
  | cons v vs ih =>
    simp only [List.map_cons, convertToString, ih]

/-- C4. `CombineResults` sends exactly one string: the received strings sorted
into ascending lexicographic order and joined with `_`; two arrival orders of
the same multiset give the same result, and any arrival order of
`"b", "a", "c"` gives `"a_b_c"`. -/
theorem CombineResults_sorted_join (vs : List String) :
    (∃ sorted : List String, sorted.Perm vs ∧ sorted.Sorted (fun a b => a ≤ b)
        ∧ CombineResults (vs.map Payload.str) = [String.intercalate "_" sorted])
      ∧ (∀ vs' : List String, vs'.Perm vs →
          CombineResults (vs'.map Payload.str) = CombineResults (vs.map Payload.str))
      ∧ (vs.Perm ["b", "a", "c"] → CombineResults (vs.map Payload.str) = ["a_b_c"]) := by
  have hinv : ∀ l₁ l₂ : List String, l₁.Perm l₂ →
      CombineResults (l₁.map Payload.str) = CombineResults (l₂.map Payload.str) := by
    intro l₁ l₂ h
    rw [combineResults_eq, combineResults_eq, map_convertToString_str,
      map_convertToString_str, sortStrings_congr l₁ l₂ h]
  refine ⟨⟨sortStrings vs, sortStrings_perm vs, sortStrings_sorted vs, ?_⟩, ?_, ?_⟩
  · rw [combineResults_eq, map_convertToString_str, Join_eq_intercalate]
  · intro vs' h
    exact hinv vs' vs h
  · intro h
    rw [hinv vs _ h]
    decide

/-- An arrival order of `"b", "a", "c"` through `CombineResults`. -/
theorem CombineResults_sorted_join_witness :
    CombineResults (["c", "b", "a"].map Payload.str) = ["a_b_c"] :=
  (CombineResults_sorted_join ["c", "b", "a"]).2.2 (by decide)

/-- C5. On an empty input sequence `SingleHash` and `MultiHash` send nothing,
under every schedule, and `CombineResults` sends the empty string. -/
theorem empty_input :
    (∀ (crc md5 : String → String) (sched : List Nat), SingleHash crc md5 sched [] = [])
      ∧ (∀ (crc : String → String) (innerSched : Nat → List Nat) (outerSched : List Nat),
          MultiHash crc innerSched outerSched [] = [])
      ∧ CombineResults [] = [""] :=
  ⟨fun _ _ _ => rfl, fun _ _ _ => rfl, rfl⟩

/-- C2. For every finite sequence of string payloads and every schedule of the
inner channels and of the outer channel, the multiset of strings `MultiHash`
sends equals the multiset, over the inputs `v`, of the six sub-hashes
`crc(str(i) ++ v)` concatenated in ascending shard index: exactly one output
per input. -/
theorem MultiHash_multiset (crc : String → String) (innerSched : Nat → List Nat)
    (outerSched : List Nat) (vs : List String) :
    (MultiHash crc innerSched outerSched (vs.map Payload.str) : Multiset String)
        = (vs.map (fun v => crc ("0" ++ v) ++ crc ("1" ++ v) ++ crc ("2" ++ v)
            ++ crc ("3" ++ v) ++ crc ("4" ++ v) ++ crc ("5" ++ v)) : Multiset String)
      ∧ (MultiHash crc innerSched outerSched (vs.map Payload.str)).length = vs.length := by
  have hp : (MultiHash crc innerSched outerSched (vs.map Payload.str)).Perm
      (vs.map (fun v => crc ("0" ++ v) ++ crc ("1" ++ v) ++ crc ("2" ++ v)
            ++ crc ("3" ++ v) ++ crc ("4" ++ v) ++ crc ("5" ++ v))) := by
    rw [multiHash_eq]
    refine (deliver_perm _ _).trans (List.Perm.of_eq ?_)
    have h1 : ((vs.map Payload.str).enum.map fun kx =>
          multiHashSpawn crc (innerSched kx.1) kx.2)
        = ((vs.map Payload.str).enum.map Prod.snd).map (fun p =>
            crc ("0" ++ convertToString p) ++ crc ("1" ++ convertToString p)
              ++ crc ("2" ++ convertToString p) ++ crc ("3" ++ convertToString p)
              ++ crc ("4" ++ convertToString p) ++ crc ("5" ++ convertToString p)) := by
      rw [List.map_map]
      refine List.map_congr_left ?_
      intro kx hkx
      obtain ⟨k, x⟩ := kx
      have hx : x ∈ vs.map Payload.str := by
        rw [(List.mem_enum hkx).2]
        apply List.getElem_mem
      obtain ⟨v, -, rfl⟩ := List.mem_map.mp hx
      simp only [Function.comp, multiHashSpawn_str, convertToString]
    rw [h1, List.enum_map_snd, List.map_map]
    rfl
  exact ⟨Multiset.coe_eq_coe.mpr hp, by simpa using hp.length_eq⟩

/-- C3. When the ids of the received nodes are a permutation of `0..n-1`,
`calculateOuterMultiHash` sends the values concatenated in ascending id order,
and every other arrival order of the same nodes gives the identical string. -/
theorem calculateOuterMultiHash_ascending (n : Nat) (nodes : List HashNode)
    (hids : (nodes.map fun o => o.id).Perm ((List.range n).map (fun i : Nat => (i : Int)))) :
    (∀ sorted : List HashNode, sorted.Perm nodes →
        sorted.Sorted (fun a b => a.id ≤ b.id) →
        calculateOuterMultiHash nodes = String.join (sorted.map fun o => o.value))
      ∧ (∃ sorted : List HashNode, sorted.Perm nodes ∧
          sorted.Sorted (fun a b => a.id ≤ b.id))
      ∧ (∀ nodes' : List HashNode, nodes'.Perm nodes →
          calculateOuterMultiHash nodes' = calculateOuterMultiHash nodes) := by
  have htot : IsTotal HashNode (fun a b => a.id ≤ b.id) := ⟨fun a b => le_total a.id b.id⟩
  have htr : IsTrans HashNode (fun a b => a.id ≤ b.id) :=
    ⟨fun a b c h1 h2 => le_trans (a := a.id) h1 h2⟩
  have hex : (nodes.insertionSort (fun a b => a.id ≤ b.id)).Sorted (fun a b => a.id ≤ b.id) :=
    List.sorted_insertionSort _ nodes
  have hpm := List.perm_insertionSort (fun a b : HashNode => a.id ≤ b.id) nodes
  refine ⟨fun sorted hp hs => outer_of_sorted n nodes sorted hids hp hs, ⟨_, hpm, hex⟩, ?_⟩
  intro nodes' hp
  rw [outer_of_sorted n nodes _ hids hpm hex,
    outer_of_sorted n nodes' _ ((hp.map _).trans hids) (hpm.trans hp.symm) hex]

/-- Three tagged sub-results arriving as 2, 0, 1 are joined as 0, 1, 2. -/
theorem calculateOuterMultiHash_ascending_witness :
    calculateOuterMultiHash [⟨2, "c"⟩, ⟨0, "a"⟩, ⟨1, "b"⟩]
      = String.join ([(⟨0, "a"⟩ : HashNode), ⟨1, "b"⟩, ⟨2, "c"⟩].map fun o => o.value) :=
  (calculateOuterMultiHash_ascending 3 [⟨2, "c"⟩, ⟨0, "a"⟩, ⟨1, "b"⟩] (by decide)).1
    [⟨0, "a"⟩, ⟨1, "b"⟩, ⟨2, "c"⟩] (by decide) (by decide)

/-- C9. For every sequence of received nodes, `calculateOuterMultiHash` sends
the concatenation, for `i = 0, ..., n-1` with `n` the number of nodes received,
of the value last received with id `i` (the empty string when there is none);
the value of a node whose id is negative or at least `n` does not reach the
output; the nodes `(1,"a"), (2,"b")` give `"a"`, not `"ab"`. -/
theorem calculateOuterMultiHash_by_index :
    (∀ received : List HashNode, calculateOuterMultiHash received
        = String.join ((List.range received.length).map
            (fun i : Nat => lastValueWithId received (i : Int))))
      ∧ (∀ (pre post : List HashNode) (o : HashNode) (v : String),
          (o.id < 0 ∨ ((pre ++ o :: post).length : Int) ≤ o.id) →
          calculateOuterMultiHash (pre ++ o :: post)
            = calculateOuterMultiHash (pre ++ { id := o.id, value := v } :: post))
      ∧ calculateOuterMultiHash [⟨1, "a"⟩, ⟨2, "b"⟩] = "a"
      ∧ calculateOuterMultiHash [⟨1, "a"⟩, ⟨2, "b"⟩] ≠ "ab" := by
  refine ⟨calculateOuterMultiHash_eq, ?_, by decide, by decide⟩
  intro pre post o v ho
  rw [calculateOuterMultiHash_eq, calculateOuterMultiHash_eq]
  have hlen : (pre ++ ({ id := o.id, value := v } : HashNode) :: post).length
      = (pre ++ o :: post).length := by simp
  rw [hlen]
  congr 1
  refine List.map_congr_left ?_
  intro i hi
  have hi' : i < (pre ++ o :: post).length := List.mem_range.mp hi
  have hne : o.id ≠ (i : Int) := by
    rcases ho with h | h
    · omega
    · omega
  simp only [lastValueWithId_eq_get, List.reverse_append, List.reverse_cons, List.map_append,
    List.map_cons, List.map_nil, List.append_assoc, List.singleton_append]
  rw [get_append_cons_ne _ _ _ _ _ hne, get_append_cons_ne _ _ _ _ _ hne]

/-- The value received with the out-of-range id 7 does not reach the output. -/
theorem calculateOuterMultiHash_by_index_witness :
    calculateOuterMultiHash ([] ++ (⟨7, "x"⟩ : HashNode) :: [⟨0, "y"⟩])
      = calculateOuterMultiHash ([] ++ ({ id := 7, value := "z" } : HashNode) :: [⟨0, "y"⟩]) :=
  calculateOuterMultiHash_by_index.2.1 [] [⟨0, "y"⟩] ⟨7, "x"⟩ "z" (Or.inr (by decide))

theorem convertToInt_of_not_int (p : Payload) (h : ∀ v, p ≠ Payload.int v) :
    convertToInt p = 0 := by
  cases p with
  | int v => exact absurd rfl (h v)
  | str s => rfl
  | other t => rfl

theorem convertToString_of_not_str (p : Payload) (h : ∀ s, p ≠ Payload.str s) :
    convertToString p = "" := by
  cases p with
  | int v => rfl
  | str s => exact absurd rfl (h s)
  | other t => rfl

theorem singleHash_congr (crc md5 : String → String) (sched : List Nat)
    (l₁ l₂ : List Payload) (h : l₁.map convertToInt = l₂.map convertToInt) :
    SingleHash crc md5 sched l₁ = SingleHash crc md5 sched l₂ := by
  have key : ∀ l : List Payload, l.map (singleHashSpawn crc md5)
      = (l.map convertToInt).map
          (fun i => calculateSingleHashSum crc (Itoa i) (md5 (Itoa i))) := by
    intro l
    rw [List.map_map]
    rfl
  rw [singleHash_eq, singleHash_eq, key, key, h]

theorem multiHash_congr (crc : String → String) (innerSched : Nat → List Nat)
    (outerSched : List Nat) (l₁ l₂ : List Payload)
    (h : l₁.map convertToString = l₂.map convertToString) :
    MultiHash crc innerSched outerSched l₁ = MultiHash crc innerSched outerSched l₂ := by
  have key : ∀ l : List Payload,
      (l.enum.map fun kx => multiHashSpawn crc (innerSched kx.1) kx.2)
        = (l.map convertToString).enum.map (fun ks =>
            calculateOuterMultiHash (deliver (innerSched ks.1)
              ((List.range multiHashSubHashes).map
                (fun i => calculateInnerMultiHash crc i ks.2)))) := by
    intro l
    rw [List.enum_map, List.map_map]
    rfl
  rw [multiHash_eq, multiHash_eq, key, key, h]

theorem combineResults_congr (l₁ l₂ : List Payload)
    (h : l₁.map convertToString = l₂.map convertToString) :
    CombineResults l₁ = CombineResults l₂ := by
  rw [combineResults_eq, combineResults_eq, h]

/-- C6. `convertToInt` returns 0 for every payload that is not an int and
`convertToString` returns the empty string for every payload that is not a
string, as plain values with no error; so `SingleHash` treats a non-int
payload as the int 0, and `MultiHash` and `CombineResults` treat a non-string
payload as the empty string. -/
theorem conversion_zero_value :
    (∀ p : Payload, (∀ v, p ≠ Payload.int v) → convertToInt p = 0)
      ∧ (∀ p : Payload, (∀ s, p ≠ Payload.str s) → convertToString p = "")
      ∧ (∀ (crc md5 : String → String) (sched : List Nat) (pre post : List Payload)
          (p : Payload), (∀ v, p ≠ Payload.int v) →
          SingleHash crc md5 sched (pre ++ p :: post)
            = SingleHash crc md5 sched (pre ++ Payload.int 0 :: post))
      ∧ (∀ (crc : String → String) (innerSched : Nat → List Nat) (outerSched : List Nat)
          (pre post : List Payload) (p : Payload), (∀ s, p ≠ Payload.str s) →
          MultiHash crc innerSched outerSched (pre ++ p :: post)
            = MultiHash crc innerSched outerSched (pre ++ Payload.str "" :: post))
      ∧ (∀ (pre post : List Payload) (p : Payload), (∀ s, p ≠ Payload.str s) →
          CombineResults (pre ++ p :: post) = CombineResults (pre ++ Payload.str "" :: post)) := by
  refine ⟨convertToInt_of_not_int, convertToString_of_not_str, ?_, ?_, ?_⟩
  · intro crc md5 sched pre post p hp
    apply singleHash_congr
    simp [convertToInt_of_not_int p hp, convertToInt]
  · intro crc innerSched outerSched pre post p hp
    apply multiHash_congr
    simp [convertToString_of_not_str p hp, convertToString]
  · intro pre post p hp
    apply combineResults_congr
    simp [convertToString_of_not_str p hp, convertToString]

/-- The string payload `"5"` through `SingleHash` gives what the int 0 gives. -/
theorem conversion_zero_value_witness :
    SingleHash id (fun x => "H(" ++ x ++ ")") [] ([] ++ Payload.str "5" :: [])
      = SingleHash id (fun x => "H(" ++ x ++ ")") [] ([] ++ Payload.int 0 :: []) :=
  conversion_zero_value.2.2.1 id (fun x => "H(" ++ x ++ ")") [] [] [] (Payload.str "5")
    (fun _ h => Payload.noConfusion h)

theorem pipeline_foldl {Job : Type} (jobs : List Job) (st : PipelineState Job)
    (h : st.made = st.outCh + 1) (h' : st.outCh = st.inCh + 1) :
    (jobs.foldl pipelineStep st).launched
      = st.launched ++ (jobs.enumFrom st.inCh).map
          (fun ij => ({ job := ij.2, inCh := ij.1, outCh := ij.1 + 1 } : Launch Job)) := by
  induction jobs generalizing st with
  | nil => simp
  | cons j jobs ih =>
    rw [List.foldl_cons, ih (pipelineStep st j) (by simp [pipelineStep, h])
      (by simp [pipelineStep, h, h'])]
    simp [pipelineStep, runJob, h', List.enumFrom]

theorem executePipeline_eq {Job : Type} (jobs : List Job) :
    ExecutePipeline jobs = jobs.enum.map
      (fun ij => ({ job := ij.2, inCh := ij.1, outCh := ij.1 + 1 } : Launch Job)) := by
  simp [ExecutePipeline, pipeline_foldl, List.enum]

/-- C7. `ExecutePipeline` starts each job exactly once, job `i` with input
queue `i` and output queue `i+1`; the output queue of job `i` is the input
queue of job `i+1`, no queue is the input of two jobs and none the output of
two jobs. -/
theorem ExecutePipeline_wiring {Job : Type} (jobs : List Job) :
    ExecutePipeline jobs = jobs.enum.map
        (fun ij => ({ job := ij.2, inCh := ij.1, outCh := ij.1 + 1 } : Launch Job))
      ∧ (ExecutePipeline jobs).map (fun l => l.job) = jobs
      ∧ (ExecutePipeline jobs).map (fun l => l.inCh) = List.range jobs.length
      ∧ (ExecutePipeline jobs).map (fun l => l.outCh) = (List.range jobs.length).map (· + 1)
      ∧ ((ExecutePipeline jobs).map (fun l => l.inCh)).Nodup
      ∧ ((ExecutePipeline jobs).map (fun l => l.outCh)).Nodup := by
  have hj : (ExecutePipeline jobs).map (fun l => l.job) = jobs := by
    rw [executePipeline_eq, List.map_map]
    exact List.enum_map_snd jobs
  have hi : (ExecutePipeline jobs).map (fun l => l.inCh) = List.range jobs.length := by
    rw [executePipeline_eq, List.map_map]
    exact List.enum_map_fst jobs
  have ho : (ExecutePipeline jobs).map (fun l => l.outCh)
      = (List.range jobs.length).map (· + 1) := by
    rw [executePipeline_eq, List.map_map, ← List.enum_map_fst jobs, List.map_map]
    rfl
  refine ⟨executePipeline_eq jobs, hj, hi, ho, ?_, ?_⟩
  · rw [hi]; exact List.nodup_range _
  · rw [ho]; exact (List.nodup_range _).map (fun a b h => Nat.succ.inj h)

end Signer

namespace DirTree
open Go

theorem nodeLine_eq (printFiles : Bool) (levelPrefix name : String) (size : Int)
    (length key : Nat) (isLast : Bool) (hk : key < length)
    (hl : isLast = true ↔ length = key + 1) :
    (let nodePathName := levelPrefix
     let nodePathName :=
       if length > key + 1 then nodePathName ++ defaultNodePrefix else nodePathName
     let nodePathName :=
       if length = key + 1 then nodePathName ++ lastNodePrefix else nodePathName
     let nodePathName := nodePathName ++ name
     let nodePathName :=
       if printFiles = true ∧ size = 0 then nodePathName ++ emptySizeSuffix else nodePathName
     let nodePathName :=
       if printFiles = true ∧ size > 0 then nodePathName ++ nonEmptySizeSuffix (Itoa size)
       else nodePathName
     nodePathName ++ newLine)
      = levelPrefix ++ (if isLast then "└───" else "├───")
          ++ specNodeLabel printFiles name size ++ "\n" := by
  have hconn : (if length = key + 1 then
        (if length > key + 1 then levelPrefix ++ defaultNodePrefix else levelPrefix)
          ++ lastNodePrefix
      else (if length > key + 1 then levelPrefix ++ defaultNodePrefix else levelPrefix))
      = levelPrefix ++ (if isLast then "└───" else "├───") := by
    cases isLast with
    | true =>
      have h1 : length = key + 1 := hl.mp rfl
      have h2 : ¬ length > key + 1 := by omega
      simp [h1, lastNodePrefix]
    | false =>
      have h1 : ¬ length = key + 1 := fun h => by simpa using hl.mpr h
      have h2 : length > key + 1 := by omega
      simp [h1, h2, defaultNodePrefix]
  simp only [hconn, specNodeLabel, emptySizeSuffix, nonEmptySizeSuffix, newLine]
  generalize (if isLast = true then "└───" else "├───") = c
  by_cases h0 : printFiles = true ∧ size = 0
  · have h1 : ¬ (printFiles = true ∧ size > 0) := by
      rintro ⟨-, h⟩; omega
    rw [if_pos h0, if_neg h1, if_pos h0]
    simp only [String.append_assoc]
  · by_cases h1 : printFiles = true ∧ size > 0
    · rw [if_neg h0, if_pos h1, if_neg h0, if_pos h1]
      simp only [String.append_assoc]
    · rw [if_neg h0, if_neg h1, if_neg h0, if_neg h1]
      simp only [String.append_assoc, String.append_empty]

theorem childrenPrefix_eq (levelPrefix : String) (length key : Nat) (isLast : Bool)
    (hk : key < length) (hl : isLast = true ↔ length = key + 1) :
    (let childrenPrefix := levelPrefix
     let childrenPrefix :=
       if length > key + 1 then childrenPrefix ++ defaultNodeLevelPrefix else childrenPrefix
     if length = key + 1 then childrenPrefix ++ lastNodeLevelPrefix else childrenPrefix)
      = levelPrefix ++ (if isLast then "\t" else "│\t") := by
  cases isLast with
  | true =>
    have h1 : length = key + 1 := hl.mp rfl
    simp [h1, lastNodeLevelPrefix]
  | false =>
    have h1 : ¬ length = key + 1 := fun h => by simpa using hl.mpr h
    have h2 : length > key + 1 := by omega
    simp [h1, h2, defaultNodeLevelPrefix]

mutual
theorem drawNode_eq (printFiles : Bool) (levelPrefix : String) (length key : Nat)
    (isLast : Bool) (hk : key < length) (hl : isLast = true ↔ length = key + 1) :
    ∀ node : FileNode, drawNode printFiles levelPrefix length key node
      = specNodeLines printFiles levelPrefix isLast node
  | .mk name size children => by
    have hsub : ∀ lp : String,
        (if children.length > 0 then drawLoop printFiles lp children.length 0 children
          else []) = specForestLines printFiles lp children := by
      intro lp
      by_cases hc : children.length > 0
      · rw [if_pos hc]
        exact drawLoop_eq printFiles lp children.length 0 children (by simp)
      · have : children = [] := List.length_eq_zero.mp (by omega)
        rw [if_neg hc, this, specForestLines]
    have hline := nodeLine_eq printFiles levelPrefix name size length key isLast hk hl
    have hpre := childrenPrefix_eq levelPrefix length key isLast hk hl
    simp only at hline hpre
    simp only [drawNode, specNodeLines]
    rw [hline, hpre, hsub]
theorem drawLoop_eq (printFiles : Bool) (levelPrefix : String) (length key : Nat) :
    ∀ rest : List FileNode, key + rest.length = length →
      drawLoop printFiles levelPrefix length key rest = specForestLines printFiles levelPrefix rest
  | [], _ => by simp [drawLoop, specForestLines]
  | node :: rest, h => by
    have hk : key < length := by simp at h; omega
    have hl : rest.isEmpty = true ↔ length = key + 1 := by
      cases rest with
      | nil => simp at h ⊢; omega
      | cons r rs => simp at h ⊢; omega
    rw [drawLoop, specForestLines, drawNode_eq printFiles levelPrefix length key rest.isEmpty hk hl node,
      drawLoop_eq printFiles levelPrefix length (key + 1) rest (by simp at h; omega)]
end

theorem drawDirTree_eq (fileNodes : List FileNode) (printFiles : Bool) (levelPrefix : String) :
    drawDirTree fileNodes printFiles levelPrefix = specForestLines printFiles levelPrefix fileNodes :=
  drawLoop_eq printFiles levelPrefix fileNodes.length 0 fileNodes (by simp)

mutual
theorem specNodeLines_length (printFiles : Bool) (levelPrefix : String) (isLast : Bool) :
    ∀ node : FileNode, (specNodeLines printFiles levelPrefix isLast node).length = specNodeCount node
  | .mk name size children => by
    simp only [specNodeLines, specNodeCount, List.length_cons,
      specForestLines_length printFiles _ children]
    omega
theorem specForestLines_length (printFiles : Bool) (levelPrefix : String) :
    ∀ forest : List FileNode,
      (specForestLines printFiles levelPrefix forest).length = specForestCount forest
  | [] => by simp [specForestLines, specForestCount]
  | node :: rest => by
    simp only [specForestLines, specForestCount, List.length_append,
      specNodeLines_length printFiles levelPrefix _ node,
      specForestLines_length printFiles levelPrefix rest]
end

mutual
theorem specNodeLines_shape (printFiles : Bool) (levelPrefix : String) (isLast : Bool) :
    ∀ node : FileNode, ∀ w ∈ specNodeLines printFiles levelPrefix isLast node,
      ∃ body : String, w = levelPrefix ++ body ++ "\n"
  | .mk name size children => by
    intro w hw
    simp only [specNodeLines, List.mem_cons] at hw
    rcases hw with hw | hw
    · exact ⟨_, by rw [hw, String.append_assoc levelPrefix]⟩
    · obtain ⟨body, hb⟩ := specForestLines_shape printFiles _ children w hw
      exact ⟨_, by rw [hb, String.append_assoc levelPrefix]⟩
theorem specForestLines_shape (printFiles : Bool) (levelPrefix : String) :
    ∀ forest : List FileNode, ∀ w ∈ specForestLines printFiles levelPrefix forest,
      ∃ body : String, w = levelPrefix ++ body ++ "\n"
  | [] => by simp [specForestLines]
  | node :: rest => by
    intro w hw
    simp only [specForestLines, List.mem_append] at hw
    rcases hw with hw | hw
    · exact specNodeLines_shape printFiles levelPrefix _ node w hw
    · exact specForestLines_shape printFiles levelPrefix rest w hw
end

/-- C10. For every forest and level prefix `drawDirTree` writes one
newline-terminated line per node, nested children included, in depth-first
pre-order: the line of a node is the level prefix, the connector `└───` when
the node is the last of its sibling list and `├───` otherwise, the node's
label and a newline, followed by the lines of its children under the level
prefix extended with a tab when the node is last and with `│` and a tab
otherwise. -/
theorem drawDirTree_lines (fileNodes : List FileNode) (printFiles : Bool)
    (levelPrefix : String) :
    drawDirTree fileNodes printFiles levelPrefix
        = specForestLines printFiles levelPrefix fileNodes
      ∧ (drawDirTree fileNodes printFiles levelPrefix).length = specForestCount fileNodes
      ∧ ∀ w ∈ drawDirTree fileNodes printFiles levelPrefix,
          ∃ body : String, w = levelPrefix ++ body ++ "\n" := by
  rw [drawDirTree_eq]
  exact ⟨rfl, specForestLines_length printFiles levelPrefix fileNodes,
    specForestLines_shape printFiles levelPrefix fileNodes⟩

end DirTree

namespace Signer
open Go

theorem program_md5Events (g : Goroutine) : md5Events (program g) = [] := by
  cases g <;> simp [program, md5Events, isMd5]

theorem program_weight (g : Goroutine) : actionsWeight (program g) = goroutineWeight g := by
  cases g <;> simp [program, actionsWeight, actionWeight, goroutineWeight]

theorem spawnThread_md5 (l : List Action) (h : md5Events l = []) :
    ∀ t ∈ spawnThread l, md5Events (t.next :: t.rest) = [] := by
  cases l with
  | nil => simp [spawnThread]
  | cons a rest =>
    intro t ht
    simp only [spawnThread, List.mem_singleton] at ht
    subst ht
    exact h

theorem spawnThread_weight (l : List Action) :
    threadsWeight (spawnThread l) = actionsWeight l := by
  cases l with
  | nil => rfl
  | cons a rest => simp [spawnThread, threadsWeight]

theorem threadsWeight_append (a b : List Thread) :
    threadsWeight (a ++ b) = threadsWeight a + threadsWeight b := by
  simp [threadsWeight]

theorem exec_md5 (a : Action) : ∀ t ∈ (exec a).2, md5Events (t.next :: t.rest) = [] := by
  cases a with
  | event e => simp [exec]
  | go g => exact spawnThread_md5 _ (program_md5Events g)

theorem exec_weight (a : Action) : threadsWeight (exec a).2 + 1 = actionWeight a := by
  cases a with
  | event e => simp [exec, threadsWeight, actionWeight]
  | go g =>
    simp only [exec, spawnThread_weight, program_weight, actionWeight]
    omega

theorem exec_events (a : Action) (rest : List Action) :
    (exec a).1.toList.filter isMd5 ++ md5Events rest = md5Events (a :: rest) := by
  cases a with
  | event e =>
    by_cases h : isMd5 e = true
    · simp [exec, md5Events, h]
    · simp [exec, md5Events, h]
  | go g => simp [exec, md5Events]

theorem md5Events_cons_nil (a : Action) (rest : List Action)
    (h : md5Events (a :: rest) = []) :
    (exec a).1.toList.filter isMd5 = [] ∧ md5Events rest = [] := by
  have := exec_events a rest
  rw [h] at this
  exact List.append_eq_nil.mp this

theorem getD_mem_cons {α : Type} (w : α) (ws : List α) (i : Nat) :
    (w :: ws).getD i w ∈ w :: ws := by
  by_cases h : i < (w :: ws).length
  · rw [List.getD_eq_getElem _ _ h]
    exact List.getElem_mem _
  · rw [List.getD_eq_default _ _ (by omega)]
    exact List.mem_cons_self _ _

theorem threadsWeight_perm (a b : List Thread) (h : a.Perm b) :
    threadsWeight a = threadsWeight b :=
  (h.map _).sum_eq

theorem runMain_spec (a : Action) (rest : List Action) (ws : List Thread)
    (hws : ∀ t ∈ ws, md5Events (t.next :: t.rest) = []) :
    (∀ t ∈ (runMain a rest ws).2.workers, md5Events (t.next :: t.rest) = [])
      ∧ (runMain a rest ws).1.toList.filter isMd5 ++ md5Events (runMain a rest ws).2.main
          = md5Events (a :: rest)
      ∧ stateWeight (runMain a rest ws).2 + 1 = stateWeight ⟨a :: rest, ws⟩ := by
  refine ⟨?_, exec_events a rest, ?_⟩
  · intro t ht
    simp only [runMain, List.mem_append] at ht
    rcases ht with ht | ht
    · exact hws t ht
    · exact exec_md5 a t ht
  · have := exec_weight a
    simp only [runMain, stateWeight, threadsWeight_append, actionsWeight, List.map_cons,
      List.sum_cons]
    omega

theorem runWorker_spec (main : List Action) (i : Nat) (w : Thread) (ws : List Thread)
    (hi : i < (w :: ws).length)
    (hws : ∀ t ∈ w :: ws, md5Events (t.next :: t.rest) = []) :
    (∀ t ∈ (runWorker main i w ws).2.workers, md5Events (t.next :: t.rest) = [])
      ∧ (runWorker main i w ws).1.toList.filter isMd5
            ++ md5Events (runWorker main i w ws).2.main = md5Events main
      ∧ stateWeight (runWorker main i w ws).2 + 1 = stateWeight ⟨main, w :: ws⟩ := by
  have hmem := getD_mem_cons w ws i
  have hnil := md5Events_cons_nil _ _ (hws _ hmem)
  refine ⟨?_, ?_, ?_⟩
  · intro t ht
    simp only [runWorker, List.mem_append] at ht
    rcases ht with (ht | ht) | ht
    · exact hws t (List.mem_of_mem_eraseIdx ht)
    · exact spawnThread_md5 _ hnil.2 t ht
    · exact exec_md5 _ t ht
  · simp only [runWorker, hnil.1, List.nil_append]
  · have hperm := threadsWeight_perm _ _ (getD_cons_eraseIdx_perm (w :: ws) i w hi)
    have hw := exec_weight ((w :: ws).getD i w).next
    have hcons : threadsWeight ((w :: ws).getD i w :: (w :: ws).eraseIdx i)
        = actionWeight ((w :: ws).getD i w).next + actionsWeight ((w :: ws).getD i w).rest
          + threadsWeight ((w :: ws).eraseIdx i) := by
      simp [threadsWeight, actionsWeight]
    simp only [runWorker, stateWeight, threadsWeight_append, spawnThread_weight]
    omega

theorem step_none (c : Nat) (st : RunState) (h : step c st = none) : st.main = [] := by
  obtain ⟨main, workers⟩ := st
  cases main with
  | nil => rfl
  | cons a rest =>
    cases workers with
    | nil => simp [step] at h
    | cons w ws =>
      simp only [step] at h
      split at h <;> simp at h

theorem step_spec (c : Nat) (st : RunState) (ev : Option Event) (st' : RunState)
    (h : step c st = some (ev, st'))
    (hws : ∀ t ∈ st.workers, md5Events (t.next :: t.rest) = []) :
    (∀ t ∈ st'.workers, md5Events (t.next :: t.rest) = [])
      ∧ ev.toList.filter isMd5 ++ md5Events st'.main = md5Events st.main
      ∧ stateWeight st' + 1 = stateWeight st := by
  obtain ⟨main, workers⟩ := st
  cases main with
  | nil =>
    cases workers with
    | nil => simp [step] at h
    | cons w ws =>
      simp only [step, Option.some.injEq] at h
      have hs := runWorker_spec [] (c % (ws.length + 1)) w ws
        (by simpa using Nat.mod_lt c (Nat.succ_pos ws.length)) hws
      rw [h] at hs
      exact hs
  | cons a rest =>
    cases workers with
    | nil =>
      simp only [step, Option.some.injEq] at h
      have hs := runMain_spec a rest [] hws
      rw [h] at hs
      exact hs
    | cons w ws =>
      simp only [step] at h
      by_cases hc : c % (ws.length + 2) = 0
      · rw [if_pos hc, Option.some.injEq] at h
        have hs := runMain_spec a rest (w :: ws) hws
        rw [h] at hs
        exact hs
      · rw [if_neg hc, Option.some.injEq] at h
        have hlt : c % (ws.length + 2) < ws.length + 2 := Nat.mod_lt c (by omega)
        have hs := runWorker_spec (a :: rest) (c % (ws.length + 2) - 1) w ws
          (by simp only [List.length_cons]; omega) hws
        rw [h] at hs
        exact hs

theorem run_md5 (fuel : Nat) (sched : List Nat) (st : RunState)
    (hws : ∀ t ∈ st.workers, md5Events (t.next :: t.rest) = [])
    (hfuel : stateWeight st ≤ fuel) :
    (run fuel sched st).filter isMd5 = md5Events st.main := by
  induction fuel generalizing sched st with
  | zero =>
    have hz : actionsWeight st.main = 0 := by
      simp only [stateWeight] at hfuel; omega
    have hm : st.main = [] := by
      cases hmain : st.main with
      | nil => rfl
      | cons a rest =>
        rw [hmain] at hz
        cases a <;> simp [actionsWeight, actionWeight] at hz
    simp [run, hm, md5Events]
  | succ fuel ih =>
    cases hstep : step (sched.headD 0) st with
    | none =>
      simp only [run, hstep]
      simp [step_none _ _ hstep, md5Events]
    | some r =>
      obtain ⟨ev, st'⟩ := r
      obtain ⟨h1, h2, h3⟩ := step_spec _ _ _ _ hstep hws
      simp only [run, hstep, List.filter_append]
      rw [ih sched.tail st' h1 (by omega), h2]

theorem mainLoop_md5 (k : Nat) (input : List Payload) (tail : List Action) :
    md5Events (mainLoop k input ++ tail) = md5Sequence k input.length ++ md5Events tail := by
  induction input generalizing k with
  | nil => simp [mainLoop, md5Sequence]
  | cons x xs ih => simp [mainLoop, md5Sequence, md5Events, isMd5, ih]

theorem mainLoop_weight (k : Nat) (input : List Payload) :
    actionsWeight (mainLoop k input) = 9 * input.length := by
  induction input generalizing k with
  | nil => simp [mainLoop, actionsWeight]
  | cons x xs ih =>
    have := ih (k + 1)
    simp only [actionsWeight] at this
    simp only [mainLoop, actionsWeight, List.map_append, List.sum_append, List.map_cons,
      List.map_nil, List.sum_cons, List.sum_nil, actionWeight, goroutineWeight,
      List.length_cons, this]
    omega

theorem singleHashTrace_md5 (sched : List Nat) (input : List Payload) :
    (singleHashTrace sched input).filter isMd5 = md5Sequence 0 input.length := by
  have h := run_md5 (9 * input.length + 1) sched { main := mainProgram input, workers := [] }
    (by simp) (by
      have := mainLoop_weight 0 input
      simp only [actionsWeight] at this
      simp [stateWeight, mainProgram, actionsWeight, threadsWeight, actionWeight,
        goroutineWeight, this])
  rw [singleHashTrace, h, mainProgram, mainLoop_md5]
  simp [md5Events]

theorem md5Calls_filter (p : List Event) : md5Calls (p.filter isMd5) = md5Calls p := by
  induction p with
  | nil => rfl
  | cons e p ih =>
    simp only [md5Calls] at ih
    cases e <;> simp [md5Calls, List.filter, isMd5, ih]

theorem md5Returns_filter (p : List Event) : md5Returns (p.filter isMd5) = md5Returns p := by
  induction p with
  | nil => rfl
  | cons e p ih =>
    simp only [md5Returns] at ih
    cases e <;> simp [md5Returns, List.filter, isMd5, ih]

theorem count_filter_md5 (e : Event) (he : isMd5 e = true) (p : List Event) :
    (p.filter isMd5).count e = p.count e := by
  induction p with
  | nil => rfl
  | cons x p ih =>
    by_cases hx : isMd5 x = true
    · simp [List.filter, hx, List.count_cons, ih]
    · have hne : x ≠ e := fun h => hx (h ▸ he)
      simp [List.filter, hx, List.count_cons, ih, hne]

theorem md5Sequence_split (n k : Nat) (p t : List Event)
    (h : p ++ t = md5Sequence k n) :
    md5Returns p ≤ md5Calls p ∧ md5Calls p ≤ md5Returns p + 1 := by
  induction n generalizing k p with
  | zero =>
    have hp : p = [] := (List.append_eq_nil.mp (by simpa [md5Sequence] using h)).1
    subst hp
    simp [md5Calls, md5Returns]
  | succ n ih =>
    cases p with
    | nil => simp [md5Calls, md5Returns]
    | cons a p =>
      simp only [md5Sequence, List.cons_append, List.cons.injEq] at h
      obtain ⟨ha, h⟩ := h
      subst ha
      cases p with
      | nil => simp [md5Calls, md5Returns]
      | cons b p =>
        simp only [List.cons_append, List.cons.injEq] at h
        obtain ⟨hb, h⟩ := h
        subst hb
        have := ih (k + 1) p h
        simp only [md5Calls, md5Returns] at this
        simp only [md5Calls, md5Returns, List.countP_cons]
        simp
        omega

theorem md5Sequence_calls (n k : Nat) : md5Calls (md5Sequence k n) = n := by
  induction n generalizing k with
  | zero => rfl
  | succ n ih =>
    have := ih (k + 1)
    simp only [md5Calls] at this
    simp [md5Sequence, md5Calls, List.countP_cons, this]

theorem md5Sequence_count (n k j : Nat) :
    (md5Sequence k n).count (Event.md5Call j) = (if k ≤ j ∧ j < k + n then 1 else 0)
      ∧ (md5Sequence k n).count (Event.md5Return j)
          = (if k ≤ j ∧ j < k + n then 1 else 0) := by
  induction n generalizing k with
  | zero =>
    have hn : ¬ (k ≤ j ∧ j < k + 0) := by omega
    simp only [md5Sequence, List.count_nil, if_neg hn, and_self]
  | succ n ih =>
    obtain ⟨h1, h2⟩ := ih (k + 1)
    simp only [md5Sequence, List.count_cons, h1, h2]
    constructor
    · by_cases hk : k = j
      · subst hk; simp
      · have : ¬ (Event.md5Call k = Event.md5Call j) := fun h => hk (by injection h)
        simp [this]
        split_ifs <;> omega
    · by_cases hk : k = j
      · subst hk; simp
      · have : ¬ (Event.md5Return k = Event.md5Return j) := fun h => hk (by injection h)
        simp [this]
        split_ifs <;> omega

theorem overlap_run (x : Payload) (xs : List Payload) :
    ∃ t : List Event, [Event.md5Call 0, Event.md5Return 0, Event.crcCall 0 false,
        Event.crcCall 0 true] ++ t = singleHashTrace [0, 0, 0, 1, 1, 1, 1] (x :: xs) := by
  have hf : 9 * (x :: xs).length + 1 = (9 * xs.length + 3) + 7 := by
    simp only [List.length_cons]; omega
  rw [singleHashTrace, hf]
  cases xs with
  | nil =>
    exact ⟨_, by
      simp [mainProgram, mainLoop, run, step, runMain, runWorker, exec, spawnThread, program]
      rfl⟩
  | cons y ys =>
    exact ⟨_, by
      simp [mainProgram, mainLoop, run, step, runMain, runWorker, exec, spawnThread, program]
      rfl⟩

theorem overlap_across_inputs (x y : Payload) (zs : List Payload) :
    ∃ t : List Event, [Event.md5Call 0, Event.md5Return 0, Event.md5Call 1,
        Event.md5Return 1, Event.crcCall 0 false, Event.crcCall 1 false] ++ t
      = singleHashTrace [0, 0, 0, 0, 0, 0, 1, 1, 2, 3] (x :: y :: zs) := by
  have hf : 9 * (x :: y :: zs).length + 1 = (9 * zs.length + 9) + 10 := by
    simp only [List.length_cons]; omega
  rw [singleHashTrace, hf]
  cases zs with
  | nil =>
    exact ⟨_, by
      simp [mainProgram, mainLoop, run, step, runMain, runWorker, exec, spawnThread, program]
      rfl⟩
  | cons z zs =>
    exact ⟨_, by
      simp [mainProgram, mainLoop, run, step, runMain, runWorker, exec, spawnThread, program]
      rfl⟩

/-- C8. In every run of `SingleHash`, under every schedule: after every initial
segment of the trace the `DataSignerMd5` calls begun exceed those returned by
at most one, so at most one call is in flight; exactly one call is made, and
returns, for each input; and `DataSignerCrc32` calls may be in flight together:
for a non-empty input some run has both calls of the first input in flight at
once, and for two or more inputs some run has calls of the first two inputs in
flight at once. -/
theorem SingleHash_md5_serialized (sched : List Nat) (input : List Payload) :
    (∀ p t : List Event, p ++ t = singleHashTrace sched input →
        md5Returns p ≤ md5Calls p ∧ md5Calls p ≤ md5Returns p + 1)
      ∧ (∀ k : Nat, k < input.length →
          (singleHashTrace sched input).count (Event.md5Call k) = 1
            ∧ (singleHashTrace sched input).count (Event.md5Return k) = 1)
      ∧ md5Calls (singleHashTrace sched input) = input.length
      ∧ (input ≠ [] → ∃ (sched' : List Nat) (p t : List Event),
          p ++ t = singleHashTrace sched' input ∧ crcCalls 0 p = 2 ∧ crcReturns 0 p = 0)
      ∧ (2 ≤ input.length → ∃ (sched' : List Nat) (p t : List Event),
          p ++ t = singleHashTrace sched' input ∧ crcCalls 0 p = 1 ∧ crcCalls 1 p = 1
            ∧ crcReturns 0 p = 0 ∧ crcReturns 1 p = 0) := by
  have hmd5 := singleHashTrace_md5 sched input
  refine ⟨?_, ?_, ?_, ?_, ?_⟩
  · intro p t hpt
    have hsplit : p.filter isMd5 ++ t.filter isMd5 = md5Sequence 0 input.length := by
      rw [← List.filter_append, hpt, hmd5]
    have := md5Sequence_split _ _ _ _ hsplit
    rwa [md5Calls_filter, md5Returns_filter] at this
  · intro k hk
    have hc := md5Sequence_count input.length 0 k
    have hin : 0 ≤ k ∧ k < 0 + input.length := ⟨Nat.zero_le k, by omega⟩
    rw [if_pos hin] at hc
    rw [← count_filter_md5 (Event.md5Call k) rfl, ← count_filter_md5 (Event.md5Return k) rfl,
      hmd5]
    exact hc
  · rw [← md5Calls_filter, hmd5, md5Sequence_calls]
  · intro hne
    cases input with
    | nil => exact absurd rfl hne
    | cons x xs =>
      obtain ⟨t, ht⟩ := overlap_run x xs
      exact ⟨_, _, t, ht, by decide, by decide⟩
  · intro hlen
    cases input with
    | nil => simp at hlen
    | cons x xs =>
      cases xs with
      | nil => simp at hlen
      | cons y zs =>
        obtain ⟨t, ht⟩ := overlap_across_inputs x y zs
        exact ⟨_, _, t, ht, by decide, by decide, by decide, by decide⟩

/-- A run on two inputs, cut while the second `DataSignerMd5` call and both
`DataSignerCrc32` calls of the first input are in flight. -/
theorem SingleHash_md5_serialized_witness :
    md5Returns [Event.md5Call 0, Event.md5Return 0, Event.crcCall 0 false,
        Event.crcCall 0 true, Event.md5Call 1]
      ≤ md5Calls [Event.md5Call 0, Event.md5Return 0, Event.crcCall 0 false,
        Event.crcCall 0 true, Event.md5Call 1]
    ∧ md5Calls [Event.md5Call 0, Event.md5Return 0, Event.crcCall 0 false,
        Event.crcCall 0 true, Event.md5Call 1]
      ≤ md5Returns [Event.md5Call 0, Event.md5Return 0, Event.crcCall 0 false,
        Event.crcCall 0 true, Event.md5Call 1] + 1 :=
  (SingleHash_md5_serialized [0, 0, 0, 1, 1, 1, 1] [Payload.int 1, Payload.int 2]).1
    [Event.md5Call 0, Event.md5Return 0, Event.crcCall 0 false, Event.crcCall 0 true,
      Event.md5Call 1]
    [Event.md5Return 1, Event.crcReturn 0 false, Event.crcReturn 0 true,
      Event.crcCall 1 false, Event.crcCall 1 true, Event.crcReturn 1 false,
      Event.crcReturn 1 true]
    (by decide)

end Signer
